import Mathlib

/-!
Shallow embedding of the semantic-analysis core of `prompt-cli` (tokenizer,
program detection, matcher, color engine, lexer/styler, choice and warnings
validators), together with proofs checking the specification's testable
properties against the embedded code.

Python strings are modelled as `List Char`; stateful scanning loops are
modelled as fuel-indexed structural recursions (every loop advances its
position by at least one on each step, so fuel `text.length + 1` always
suffices, and the wrappers pass exactly that).
-/

namespace PromptCli

/-- Strings of the Python source are modelled as lists of characters. -/
abbrev Str := List Char

/-! ## Tokenizer (`src/prompt_cli/core/tokenizer.py`) -/

/-- Separator test of the tokenizer: `self.text[self.pos] in " \t"`. -/
def isSep (c : Char) : Bool := c = ' ' || c = '\t'

/-- The `QuoteType` enum of `tokenizer.py`. -/
inductive QuoteType where
  | none
  | single
  | double
deriving DecidableEq, Repr

/-- The `Token` dataclass of `tokenizer.py`.  Python's `end` field is spelled
`stop` here (`end` is a Lean keyword); positions are character offsets into
the original string, `stop` exclusive.  The `__post_init__` defaulting of
`raw` to `value` never fires in `tokenize` (both parse paths pass `raw`
explicitly), so `raw` is always the filled-in field. -/
structure Token where
  value : Str
  start : Nat
  stop : Nat
  quoteType : QuoteType := .none
  raw : Str := []
deriving DecidableEq, Repr

instance : Inhabited Token := ⟨{ value := [], start := 0, stop := 0 }⟩

/-- Python slice `text[a:b]` for `a ≤ b` (clamped at the ends, as in Python). -/
def sliceStr (s : Str) (a b : Nat) : Str := (s.drop a).take (b - a)

/-- `Tokenizer._skip_whitespace`: advance the position over separators.  The
loop is written with explicit fuel so that it computes by reduction; callers
pass enough fuel for the loop to reach its natural exit. -/
def skipWhitespace (text : Str) : Nat → Nat → Nat
  | 0, pos => pos
  | fuel + 1, pos =>
    if h : pos < text.length then
      if isSep text[pos] then skipWhitespace text fuel (pos + 1) else pos
    else pos

/-- The scanning loop of `Tokenizer._parse_quoted` (lines 100-119), starting
just after the opening quote: returns the accumulated `value_parts` together
with the position just after the closing quote (or the end of input when the
quote is unterminated).  The embedded-quote loop of `_parse_unquoted`
(lines 162-178) is character for character the same loop and is modelled by
this function as well. -/
def quotedLoop (text : Str) (q : Char) : Nat → Nat → Str × Nat
  | 0, pos => ([], pos)
  | fuel + 1, pos =>
    if h : pos < text.length then
      let c := text[pos]
      if c = '\\' then
        if h2 : pos + 1 < text.length then
          let next := text[pos + 1]
          if next = q || next = '\\' then
            let r := quotedLoop text q fuel (pos + 2)
            (next :: r.1, r.2)
          else
            let r := quotedLoop text q fuel (pos + 1)
            (c :: r.1, r.2)
        else
          let r := quotedLoop text q fuel (pos + 1)
          (c :: r.1, r.2)
      else if c = q then ([], pos + 1)
      else
        let r := quotedLoop text q fuel (pos + 1)
        (c :: r.1, r.2)
    else ([], pos)

/-- `Tokenizer._parse_quoted`. -/
def parseQuoted (text : Str) (fuel : Nat) (start : Nat) (quoteChar : Char) :
    Token × Nat :=
  let r := quotedLoop text quoteChar fuel (start + 1)
  let raw := sliceStr text start r.2
  let quoteType := if quoteChar = '"' then QuoteType.double else QuoteType.single
  ({ value := r.1, start := start, stop := r.2, quoteType := quoteType, raw := raw }, r.2)

/-- The scanning loop of `Tokenizer._parse_unquoted` (lines 138-181): returns
`(value_parts, has_embedded_quote, final position)`. -/
def unquotedLoop (text : Str) : Nat → Nat → Str × Bool × Nat
  | 0, pos => ([], false, pos)
  | fuel + 1, pos =>
    if h : pos < text.length then
      let c := text[pos]
      if isSep c then ([], false, pos)
      else if c = '\\' then
        if h2 : pos + 1 < text.length then
          let next := text[pos + 1]
          if next = ' ' || next = '\t' || next = '\\' || next = '\'' || next = '"' then
            let r := unquotedLoop text fuel (pos + 2)
            (next :: r.1, r.2.1, r.2.2)
          else
            let r := unquotedLoop text fuel (pos + 1)
            (c :: r.1, r.2.1, r.2.2)
        else
          let r := unquotedLoop text fuel (pos + 1)
          (c :: r.1, r.2.1, r.2.2)
      else if c = '"' || c = '\'' then
        let inner := quotedLoop text c fuel (pos + 1)
        let r := unquotedLoop text fuel inner.2
        (inner.1 ++ r.1, true, r.2.2)
      else
        let r := unquotedLoop text fuel (pos + 1)
        (c :: r.1, r.2.1, r.2.2)
    else ([], false, pos)

/-- `Tokenizer._parse_unquoted`. -/
def parseUnquoted (text : Str) (fuel : Nat) (start : Nat) : Token × Nat :=
  let r := unquotedLoop text fuel start
  let p := r.2.2
  let raw := sliceStr text start p
  let quoteType :=
    if r.2.1 then
      if raw.contains '"' then QuoteType.double
      else if raw.contains '\'' then QuoteType.single
      else QuoteType.none
    else QuoteType.none
  ({ value := r.1, start := start, stop := p, quoteType := quoteType, raw := raw }, p)

/-- `Tokenizer._parse_token`.  The caller guarantees `pos < text.length`, so
the Python `None` return is unreachable; out of range we return a dummy empty
token at `pos`. -/
def parseToken (text : Str) (fuel : Nat) (pos : Nat) : Token × Nat :=
  if h : pos < text.length then
    let c := text[pos]
    if c = '"' || c = '\'' then parseQuoted text fuel pos c
    else parseUnquoted text fuel pos
  else ({ value := [], start := pos, stop := pos }, pos)

/-- The `while` loop of `Tokenizer.tokenize` (skip whitespace, stop at end of
input, parse one token, repeat). -/
def tokenizeLoop (text : Str) : Nat → Nat → List Token
  | 0, _ => []
  | fuel + 1, pos =>
    let p1 := skipWhitespace text (fuel + 1) pos
    if p1 < text.length then
      let r := parseToken text (fuel + 1) p1
      r.1 :: tokenizeLoop text fuel r.2
    else []

/-- `tokenize(text)`.  Fuel `text.length + 1` always suffices: every parsed
token consumes at least one character. -/
def tokenize (text : Str) : List Token :=
  tokenizeLoop text (text.length + 1) 0

/-- Python `sep.join(strings)`. -/
def joinWith (sep : Str) : List Str → Str
  | [] => []
  | [s] => s
  | s :: rest => s ++ sep ++ joinWith sep rest

/-- `detokenize(tokens)`: join the raw token texts with single spaces. -/
def detokenize (tokens : List Token) : Str :=
  joinWith [' '] (tokens.map Token.raw)

/-! ## Program detection (`src/prompt_cli/core/programs.py`)

The claims about this module exercise the `config is None` paths, so the
embedding fixes `config = None`: `_is_launcher` consults only the built-in
launcher table and `detect_program` only the built-in program table (the
config tiers of both functions are skipped when no config is given). -/

/-- Python `str.lower()` on a character list (all table entries are ASCII). -/
def toLowerStr (s : Str) : Str := s.map Char.toLower

/-- `os.path.basename`: the suffix after the last `/`. -/
def baseName (p : Str) : Str := ((p.reverse.takeWhile (fun c => c ≠ '/')).reverse)

/-- The `BUILTIN_LAUNCHERS` table: launcher name, and its flags that take a
separate argument. -/
def BUILTIN_LAUNCHERS : List (Str × List Str) :=
  [("ccache".toList, []),
   ("distcc".toList, []),
   ("sccache".toList, []),
   ("icecc".toList, []),
   ("colorgcc".toList, []),
   ("scan-build".toList,
     ["-o".toList, "--use-analyzer".toList, "-enable-checker".toList,
      "-disable-checker".toList]),
   ("bear".toList, ["-o".toList, "--output".toList, "-a".toList, "--append".toList]),
   ("time".toList, ["-f".toList, "-o".toList, "--format".toList, "--output".toList]),
   ("env".toList, []),
   ("nice".toList, ["-n".toList, "--adjustment".toList]),
   ("ionice".toList, ["-c".toList, "-n".toList, "-p".toList])]

/-- Pattern kinds of the `BUILTIN_PROGRAMS` table. -/
inductive PatKind where
  | exactPat
  | prefixPat
  | suffixPat
deriving DecidableEq, Repr

/-- The `BUILTIN_PROGRAMS` table: canonical name and `(pattern_type, pattern)`
pairs, in declaration order. -/
def BUILTIN_PROGRAMS : List (Str × List (PatKind × Str)) :=
  [("gcc".toList,
     [(.suffixPat, "-gcc".toList), (.suffixPat, "-g++".toList),
      (.exactPat, "gcc".toList), (.exactPat, "g++".toList),
      (.exactPat, "cc".toList), (.exactPat, "c++".toList),
      (.prefixPat, "gcc-".toList), (.prefixPat, "g++-".toList)]),
   ("clang".toList,
     [(.suffixPat, "-clang".toList), (.suffixPat, "-clang++".toList),
      (.exactPat, "clang".toList), (.exactPat, "clang++".toList),
      (.prefixPat, "clang-".toList), (.prefixPat, "clang++-".toList)]),
   ("rustc".toList, [(.exactPat, "rustc".toList)]),
   ("cargo".toList, [(.exactPat, "cargo".toList)]),
   ("go".toList, [(.exactPat, "go".toList)]),
   ("python".toList,
     [(.exactPat, "python".toList), (.exactPat, "python3".toList),
      (.prefixPat, "python3.".toList), (.exactPat, "python2".toList)]),
   ("make".toList,
     [(.exactPat, "make".toList), (.exactPat, "gmake".toList),
      (.exactPat, "bmake".toList)]),
   ("cmake".toList, [(.exactPat, "cmake".toList)]),
   ("ninja".toList, [(.exactPat, "ninja".toList)]),
   ("ld".toList,
     [(.suffixPat, "-ld".toList), (.exactPat, "ld".toList),
      (.exactPat, "ld.lld".toList), (.exactPat, "ld.gold".toList),
      (.exactPat, "ld.bfd".toList)]),
   ("ar".toList,
     [(.suffixPat, "-ar".toList), (.exactPat, "ar".toList),
      (.exactPat, "llvm-ar".toList)]),
   ("as".toList, [(.suffixPat, "-as".toList), (.exactPat, "as".toList)])]

/-- `LauncherInfo` dataclass. -/
structure LauncherInfo where
  name : Str
  tokenIndex : Nat
  argsEndIndex : Nat
deriving DecidableEq, Repr

/-- `ProgramMatch` dataclass. -/
structure ProgramMatch where
  canonicalName : Str
  matchedName : Str
  source : String
  tokenIndex : Nat := 0
  launcher : Option LauncherInfo := none
deriving DecidableEq, Repr

/-- `_match_builtin(basename)`: first canonical program one of whose patterns
matches the lower-cased basename. -/
def matchBuiltin (basename : Str) : Option Str :=
  let basenameLower := toLowerStr basename
  BUILTIN_PROGRAMS.findSome? fun entry =>
    if entry.2.any fun pat =>
        match pat.1 with
        | .exactPat => basenameLower = toLowerStr pat.2
        | .prefixPat => (toLowerStr pat.2).isPrefixOf basenameLower
        | .suffixPat => (toLowerStr pat.2).isSuffixOf basenameLower
    then some entry.1 else none

/-- `detect_program(executable)` with `config = None`: built-in tier, else the
unknown fallback (the function never returns `None`). -/
def detectProgram (executable : Str) : Option ProgramMatch :=
  let basename := baseName executable
  match matchBuiltin basename with
  | some canonical =>
    some { canonicalName := canonical, matchedName := basename, source := "builtin" }
  | none =>
    some { canonicalName := basename, matchedName := basename, source := "unknown" }

/-- `_is_launcher(basename)` with `config = None`: look the lower-cased
basename up in the built-in launcher table. -/
def isLauncher (basename : Str) : Option (Str × List Str) :=
  BUILTIN_LAUNCHERS.find? fun entry => toLowerStr basename = toLowerStr entry.1

/-- `value.startswith("-")`. -/
def startsWithDash (v : Str) : Bool := ['-'].isPrefixOf v

/-- The inner flag check of `find_compiler` (lines 350-354): does one of the
launcher's argument-taking flags equal the token, or prefix it as `flag=`? -/
def flagTakesArg (flagsWithArgs : List Str) (v : Str) : Bool :=
  flagsWithArgs.any fun flag => v = flag || (flag ++ ['=']).isPrefixOf v

/-- `tokens[i]`, totalized with the default token (all indexing sites in the
embedded code are in range). -/
def getTok (tokens : List Token) (i : Nat) : Token := tokens.getD i default

/-- The launcher-argument skipping loop of `find_compiler` (lines 345-364):
starting at `i`, skip tokens that look like flags, skipping an extra token
after an argument-taking flag that does not carry `=`; stop at the first
non-flag token or at the end.  Fueled: each step advances `i` by 1 or 2. -/
def skipLauncherArgs (tokens : List Token) (flagsWithArgs : List Str) :
    Nat → Nat → Nat
  | 0, i => i
  | fuel + 1, i =>
    if i < tokens.length then
      let v := (getTok tokens i).value
      if startsWithDash v then
        if flagTakesArg flagsWithArgs v && !(v.contains '=') then
          skipLauncherArgs tokens flagsWithArgs fuel (i + 2)
        else
          skipLauncherArgs tokens flagsWithArgs fuel (i + 1)
      else i
    else i

/-- The main `while` loop of `find_compiler`: peel launchers (recording the
most recent one), then report the first remaining token as the program. -/
def findCompilerGo (tokens : List Token) :
    Nat → Nat → Option LauncherInfo → Option ProgramMatch
  | 0, _, _ => none
  | fuel + 1, i, launcherInfo =>
    if i < tokens.length then
      let token := getTok tokens i
      let basename := baseName token.value
      match isLauncher basename with
      | some launcherHit =>
        let j := skipLauncherArgs tokens launcherHit.2 (fuel + 1) (i + 1)
        findCompilerGo tokens fuel j
          (some { name := launcherHit.1, tokenIndex := i, argsEndIndex := j })
      | none =>
        match detectProgram token.value with
        | some pm => some { pm with tokenIndex := i, launcher := launcherInfo }
        | none =>
          some { canonicalName := basename, matchedName := basename,
                 source := "unknown", tokenIndex := i, launcher := launcherInfo }
    else none

/-- `find_compiler(tokens)` with `config = None`.  Fuel `tokens.length + 1`
suffices: every launcher iteration advances the index by at least one. -/
def findCompiler (tokens : List Token) : Option ProgramMatch :=
  if tokens.isEmpty then none
  else findCompilerGo tokens (tokens.length + 1) 0 none

/-- `CommandLineParts` dataclass. -/
structure CommandLineParts where
  launcher : Str := []
  launcherParameters : Str := []
  program : Str := []
  programParameters : Str := []
  launcherRange : Nat × Nat := (0, 0)
  launcherParametersRange : Nat × Nat := (0, 0)
  programRange : Nat × Nat := (0, 0)
  programParametersRange : Nat × Nat := (0, 0)
deriving DecidableEq, Repr

/-- `parse_command_line(tokens)` with `config = None`. -/
def parseCommandLine (tokens : List Token) : CommandLineParts :=
  if tokens.isEmpty then {}
  else
    match findCompiler tokens with
    | none => {}
    | some programMatch =>
      let parts1 : CommandLineParts :=
        match programMatch.launcher with
        | some li =>
          let launcherIdx := li.tokenIndex
          let launcherEnd := li.argsEndIndex
          let p : CommandLineParts :=
            { launcher := (getTok tokens launcherIdx).value,
              launcherRange := (launcherIdx, launcherIdx + 1) }
          if launcherIdx + 1 < launcherEnd then
            let launcherParamTokens :=
              (tokens.drop (launcherIdx + 1)).take (launcherEnd - (launcherIdx + 1))
            { p with
              launcherParameters := joinWith [' '] (launcherParamTokens.map Token.value),
              launcherParametersRange := (launcherIdx + 1, launcherEnd) }
          else p
        | none => {}
      let programIdx := programMatch.tokenIndex
      let parts2 :=
        { parts1 with
          program := (getTok tokens programIdx).value,
          programRange := (programIdx, programIdx + 1) }
      if programIdx + 1 < tokens.length then
        { parts2 with
          programParameters :=
            joinWith [' '] ((tokens.drop (programIdx + 1)).map Token.value),
          programParametersRange := (programIdx + 1, tokens.length) }
      else parts2

/-! ## Matcher (`src/prompt_cli/core/matcher.py`)

Compiled regexes cannot be embedded syntactically; a compiled pattern is
modelled extensionally as a function from a token value to `none` (no match)
or the positional capture groups of the match, each `some (start, stop)` when
the group participated (its text is the corresponding slice of the input, as
in Python `re`).  The category-keyed dict of `_compiled_patterns` is modelled
as the flattened `(pattern, flag)` list in iteration order. -/

/-- A flag rule.  Of the configuration record only `category` is read by the
matcher (`flag.category`, matcher.py line 100). -/
structure Flag where
  category : String
deriving DecidableEq, Repr

/-- The `CaptureGroup` dataclass (`end` spelled `stop`). -/
structure CaptureGroup where
  value : Str
  start : Nat
  stop : Nat
  groupIndex : Nat
deriving DecidableEq, Repr

/-- A compiled regex pattern, extensionally. -/
def RegexPattern := Str → Option (List (Option (Nat × Nat)))

/-- The `MatchResult` dataclass. -/
structure MatchResult where
  token : Token
  category : String
  flag : Option Flag := none
  groups : List CaptureGroup := []
  matched : Bool := false
deriving DecidableEq, Repr

/-- `Matcher._extract_groups`: positional groups `1..n` that participated,
else one synthetic group `0` spanning the whole token value. -/
def extractGroups (matchGroups : List (Option (Nat × Nat))) (token : Token) :
    List CaptureGroup :=
  let groups := (matchGroups.enumFrom 1).filterMap fun p =>
    p.2.map fun se =>
      { value := sliceStr token.value se.1 se.2, start := se.1, stop := se.2,
        groupIndex := p.1 : CaptureGroup }
  if groups.isEmpty then
    [{ value := token.value, start := 0, stop := token.value.length, groupIndex := 0 }]
  else groups

/-- `Matcher.match_token`: first pattern that matches wins; with no match the
token falls through to category `"Default"` with one synthetic whole-token
group and `matched = false`. -/
def matchToken (patterns : List (RegexPattern × Flag)) (token : Token) : MatchResult :=
  match patterns.findSome? (fun pf => (pf.1 token.value).map fun m => (m, pf.2)) with
  | some mf =>
    { token := token, category := mf.2.category, flag := some mf.2,
      groups := extractGroups mf.1 token, matched := true }
  | none =>
    { token := token, category := "Default", flag := none,
      groups := [{ value := token.value, start := 0, stop := token.value.length,
                   groupIndex := 0 }],
      matched := false }

/-- The `for i, token in enumerate(tokens)` loop of `Matcher.match_tokens`. -/
def matchTokensGo (patterns : List (RegexPattern × Flag)) :
    List Token → Nat → List MatchResult
  | [], _ => []
  | token :: rest, i =>
    (if i = 0 then
      { token := token, category := "Executable", flag := none,
        groups := [{ value := token.value, start := 0, stop := token.value.length,
                     groupIndex := 0 }],
        matched := true }
    else matchToken patterns token) :: matchTokensGo patterns rest (i + 1)

/-- `Matcher.match_tokens`: index 0 is unconditionally `"Executable"`, the
rest are matched independently. -/
def matchTokens (patterns : List (RegexPattern × Flag)) (tokens : List Token) :
    List MatchResult :=
  matchTokensGo patterns tokens 0

/-! ## Color engine (`src/prompt_cli/core/color.py`) -/

/-- A color value: a name / spec string, or a numeric index (`str | int`). -/
inductive ColorVal where
  | str (s : String)
  | num (n : Int)
deriving DecidableEq, Repr

/-- The `ParsedColor` dataclass. -/
structure ParsedColor where
  fg : Option ColorVal := none
  bg : Option ColorVal := none
  bold : Option Bool := none
  dim : Option Bool := none
  italic : Option Bool := none
  underline : Option Bool := none
  blink : Option Bool := none
  reverse : Option Bool := none
  hidden : Option Bool := none
  strikethrough : Option Bool := none
  combine : Bool := false
deriving DecidableEq, Repr

/-- `combine_colors(base, overlay)`: per attribute, take overlay's value when
it is explicitly set (`is not None`), else base's; the result's `combine`
flag is the literal `False` of line 342. -/
def combineColors (base overlay : ParsedColor) : ParsedColor :=
  { fg := match overlay.fg with | some v => some v | none => base.fg,
    bg := match overlay.bg with | some v => some v | none => base.bg,
    bold := match overlay.bold with | some v => some v | none => base.bold,
    dim := match overlay.dim with | some v => some v | none => base.dim,
    italic := match overlay.italic with | some v => some v | none => base.italic,
    underline := match overlay.underline with | some v => some v | none => base.underline,
    blink := match overlay.blink with | some v => some v | none => base.blink,
    reverse := match overlay.reverse with | some v => some v | none => base.reverse,
    hidden := match overlay.hidden with | some v => some v | none => base.hidden,
    strikethrough :=
      match overlay.strikethrough with | some v => some v | none => base.strikethrough,
    combine := false }

/-- `ColorParser().parse("white")`: the default color of
`get_colors_for_groups`. -/
def whiteColor : ParsedColor := { fg := some (ColorVal.str "white") }

/-- `get_colors_for_groups(category_colors, num_groups)` on colors that are
already parsed: one color per group, repeating the last color when there are
fewer colors than groups, all white when there are none. -/
def getColorsForGroups (categoryColors : List ParsedColor) (numGroups : Nat) :
    List ParsedColor :=
  if categoryColors.isEmpty then List.replicate numGroups whiteColor
  else
    (List.range numGroups).map fun i =>
      if i < categoryColors.length then categoryColors.getD i whiteColor
      else categoryColors.getD (categoryColors.length - 1) whiteColor

/-! ## Lexer/styler (`src/prompt_cli/editor/lexer.py`)

A styled run is a `(style, text)` pair.  The style attached to a run is kept
structured — the empty style of whitespace runs, a category style class, or a
direct group color — rather than serialized to a `prompt_toolkit` style
string (the serialization affects only how a style is displayed, never the
run's text).  The category-to-colors configuration lookup of lines 139-144 is
abstracted as a function argument `catColors`; everything that determines the
sequence and content of the runs is embedded from the source. -/

/-- Style attached to a styled run. -/
inductive StyleTag where
  | plain
  | styleClass (cls : String)
  | direct (color : ParsedColor)
deriving DecidableEq, Repr

/-- `CommandLineLexer._category_to_class`. -/
def categoryToClass (category : String) : String :=
  "class:" ++ ((category.toLower.replace ":" "-").replace " " "-")

/-- The lights-off rewrite of the category (lines 127-134; the
no-category-selected branch is a `pass`). -/
def effectiveCategory (lightsOff : Bool) (lightsOffCategory : Option String)
    (category : String) : String :=
  if lightsOff then
    match lightsOffCategory with
    | some selected =>
      if category.toLower ≠ selected.toLower then "ui:lights-off-dim" else category
    | none => category
  else category

/-- The group-walking loop of `CommandLineLexer._style_groups` over the groups
sorted by `start`, carrying the enumeration index and `last_pos`. -/
def styleGroupsGo (tokenValue : Str) (colors : List ParsedColor) (category : String) :
    List CaptureGroup → Nat → Nat → List (StyleTag × Str)
  | [], _, lastPos =>
    if lastPos < tokenValue.length then
      [(StyleTag.styleClass (categoryToClass category), tokenValue.drop lastPos)]
    else []
  | g :: rest, i, lastPos =>
    (if lastPos < g.start then
      [(StyleTag.styleClass (categoryToClass category), sliceStr tokenValue lastPos g.start)]
    else []) ++
    (StyleTag.direct (colors.getD (min i (colors.length - 1)) whiteColor), g.value) ::
      styleGroupsGo tokenValue colors category rest (i + 1) g.stop

/-- `CommandLineLexer._style_groups` (Python's `sorted` is stable, as is
insertion sort). -/
def styleGroups (tokenValue : Str) (groups : List CaptureGroup)
    (colors : List ParsedColor) (category : String) : List (StyleTag × Str) :=
  styleGroupsGo tokenValue colors category
    (groups.insertionSort fun a b => a.start ≤ b.start) 0 0

/-- The result-walking loop of `CommandLineLexer._style_results`, carrying
`last_end`. -/
def styleResultsGo (originalText : Str) (catColors : String → List ParsedColor)
    (lightsOff : Bool) (lightsOffCategory : Option String) :
    List MatchResult → Nat → List (StyleTag × Str)
  | [], lastEnd =>
    if lastEnd < originalText.length then
      [(StyleTag.plain, originalText.drop lastEnd)]
    else []
  | result :: rest, lastEnd =>
    let token := result.token
    (if lastEnd < token.start then
      [(StyleTag.plain, sliceStr originalText lastEnd token.start)]
    else []) ++
    (let category := effectiveCategory lightsOff lightsOffCategory result.category
     if result.groups.isEmpty then
       [(StyleTag.styleClass (categoryToClass category), token.raw)]
     else
       styleGroups token.value result.groups
         (getColorsForGroups (catColors category) result.groups.length) category) ++
    styleResultsGo originalText catColors lightsOff lightsOffCategory rest token.stop

/-- `CommandLineLexer._style_results`. -/
def styleResults (results : List MatchResult) (originalText : Str)
    (catColors : String → List ParsedColor) (lightsOff : Bool)
    (lightsOffCategory : Option String) : List (StyleTag × Str) :=
  styleResultsGo originalText catColors lightsOff lightsOffCategory results 0

/-- Concatenated text of a list of styled runs. -/
def runsText : List (StyleTag × Str) → Str
  | [] => []
  | r :: rest => r.2 ++ runsText rest

/-! ## Validators (`src/prompt_cli/validators/`) -/

/-- The `ValidatorResult` dataclass of `validators/base.py`. -/
structure ValidatorResult where
  completions : List Str := []
  valid : Bool := true
  message : String := ""
  selectedIndex : Nat := 0
deriving DecidableEq, Repr

/-- Python `str.strip()`: remove leading and trailing whitespace. -/
def stripStr (s : Str) : Str :=
  ((s.dropWhile Char.isWhitespace).reverse.dropWhile Char.isWhitespace).reverse

/-- The constraint sets computed by
`MultipleChoiceValidator._parse_constraints` (`validators/choice.py`). -/
structure ChoiceConstraints where
  cleanOptions : List Str
  mustBeFirst : List Str
  mustBeLast : List Str
  mustBeOnly : List Str
deriving DecidableEq, Repr

/-- `MultipleChoiceValidator._parse_constraints`: a leading `$` marks
must-be-first, a trailing `$` must-be-last, both must-be-only; the markers
are stripped from the clean option. -/
def parseConstraints : List Str → ChoiceConstraints
  | [] => { cleanOptions := [], mustBeFirst := [], mustBeLast := [], mustBeOnly := [] }
  | opt :: rest =>
    let r := parseConstraints rest
    let isFirst := ['$'].isPrefixOf opt
    let isLast := ['$'].isSuffixOf opt
    let clean0 := if isFirst then opt.drop 1 else opt
    let clean := if isLast then clean0.dropLast else clean0
    { cleanOptions := clean :: r.cleanOptions,
      mustBeFirst := if isFirst && !isLast then clean :: r.mustBeFirst else r.mustBeFirst,
      mustBeLast := if isLast && !isFirst then clean :: r.mustBeLast else r.mustBeLast,
      mustBeOnly := if isFirst && isLast then clean :: r.mustBeOnly else r.mustBeOnly }

/-- `MultipleChoiceValidator.get_completions` (fields of the validator
instance — `clean_options` and the constraint sets derive from `options` —
are passed explicitly; `delimiter` is a single character, as in the
configurations the claims use).  Returns the `completions` list of the
`ValidatorResult`. -/
def mcGetCompletions (options : List Str) (delimiter : Char) (maximum : Nat)
    (currentValue : Str) : List Str :=
  let c := parseConstraints options
  let currentParts :=
    if currentValue.isEmpty then []
    else (currentValue.splitOn delimiter).map stripStr
  let hasSelections := !currentParts.isEmpty && !(currentParts.headD []).isEmpty
  c.cleanOptions.filter fun opt =>
    if currentParts.contains opt then false
    else if hasSelections && c.mustBeFirst.contains opt then false
    else if hasSelections && c.mustBeOnly.contains opt then false
    else if hasSelections && c.mustBeLast.contains (currentParts.getLastD []) then false
    else if maximum ≤ currentParts.length then false
    else true

/-- `MultipleChoiceValidator.validate`. -/
def mcValidate (options : List Str) (delimiter : Char) (minimum maximum : Nat)
    (value : Str) : ValidatorResult :=
  let c := parseConstraints options
  if value.isEmpty then
    if 0 < minimum then
      { valid := false,
        message := "At least " ++ toString minimum ++ " selection(s) required" }
    else { valid := true }
  else
    let parts := (value.splitOn delimiter).map stripStr
    if parts.length < minimum then
      { valid := false,
        message := "At least " ++ toString minimum ++ " selection(s) required" }
    else if maximum < parts.length then
      { valid := false,
        message := "At most " ++ toString maximum ++ " selection(s) allowed" }
    else
      match parts.find? fun p => !c.cleanOptions.contains p with
      | some part => { valid := false, message := "Invalid option: " ++ String.mk part }
      | none =>
        match parts.enum.find? fun ip =>
            (c.mustBeOnly.contains ip.2 && decide (1 < parts.length)) ||
            (c.mustBeFirst.contains ip.2 && decide (0 < ip.1)) ||
            (c.mustBeLast.contains ip.2 && decide (ip.1 < parts.length - 1)) with
        | some ip =>
          if c.mustBeOnly.contains ip.2 && decide (1 < parts.length) then
            { valid := false,
              message := "'" ++ String.mk ip.2 ++ "' must be the only selection" }
          else if c.mustBeFirst.contains ip.2 && decide (0 < ip.1) then
            { valid := false, message := "'" ++ String.mk ip.2 ++ "' must be first" }
          else
            { valid := false, message := "'" ++ String.mk ip.2 ++ "' must be last" }
        | none => { valid := true }

/-- `WarningsValidator.toggle` with configured prefix `pfx` (the validator's
`self.prefix`, default `"no-"`): strip the prefix when present, else prepend
it. -/
def warnToggle (pfx : Str) (warning : Str) : Str :=
  if pfx.isPrefixOf warning then warning.drop pfx.length
  else pfx ++ warning

/-! ## Specification-side definitions used to state the theorems -/

/-- Character of `text` at offset `i` (total; every use is guarded by a bound
on `i`). -/
def chAt (text : Str) (i : Nat) : Char := text.getD i ' '

/-- Where `_skip_whitespace` ends up when separators are never adjacent:
one step past a separator, else in place. -/
def specSkip (text : Str) (pos : Nat) : Nat :=
  if pos < text.length ∧ isSep (chAt text pos) = true then pos + 1 else pos

/-- The tokens of a list sit, in order, inside `text` from offset `lastEnd`
on: each starts no earlier than the previous one ended, ends after it starts,
stays inside `text`, and carries the source slice as its `raw`. -/
def TokensOrdered (text : Str) : Nat → List Token → Prop
  | _, [] => True
  | lastEnd, t :: rest =>
    lastEnd ≤ t.start ∧ t.start < t.stop ∧ t.stop ≤ text.length ∧
      t.raw = sliceStr text t.start t.stop ∧ TokensOrdered text t.stop rest

/-- Well-formed capture groups for a token value `v`, starting from offset
`lastPos`: each group starts no earlier than the previous one ended, spans a
within-bounds range of `v`, and carries the corresponding slice of `v` as its
value — what Python `re` produces whenever no capture group nests inside (or
overlaps) another.  Stated on the start-sorted group list and as a `Bool` so
that concrete instances evaluate. -/
def groupsOrdered (v : Str) : Nat → List CaptureGroup → Bool
  | _, [] => true
  | lastPos, g :: rest =>
    decide (lastPos ≤ g.start) && decide (g.start ≤ g.stop) &&
    decide (g.stop ≤ v.length) && decide (g.value = sliceStr v g.start g.stop) &&
    groupsOrdered v g.stop rest

/-- A `LauncherInfo` as `find_compiler` constructs it: its token's basename is
the recorded launcher, and its argument range ends where the skip loop ends. -/
def LauncherOk (tokens : List Token) (li : LauncherInfo) : Prop :=
  ∃ flags,
    isLauncher (baseName (getTok tokens li.tokenIndex).value) = some (li.name, flags) ∧
    ∃ fuel, li.argsEndIndex = skipLauncherArgs tokens flags fuel (li.tokenIndex + 1)

/-- The option set of the spec's multiple-choice seed scenario
(`["none$", "address", "undefined", "$all$"]`). -/
def sanitizeOptions : List Str :=
  ["none$", "address", "undefined", "$all$"].map String.toList

/-! ## Supporting lemmas: slices and characters -/

theorem sliceStr_append_drop (s : Str) (a b : Nat) (hab : a ≤ b) :
    sliceStr s a b ++ s.drop b = s.drop a := by
  unfold sliceStr
  have h1 : (s.drop a).drop (b - a) = s.drop b := by
    rw [List.drop_drop]
    congr 1
    omega
  calc (s.drop a).take (b - a) ++ s.drop b
      = (s.drop a).take (b - a) ++ (s.drop a).drop (b - a) := by rw [h1]
    _ = s.drop a := List.take_append_drop _ _

theorem sliceStr_to_length (s : Str) (a : Nat) : sliceStr s a s.length = s.drop a := by
  unfold sliceStr
  have h : s.length - a = (s.drop a).length := by simp
  rw [h, List.take_length]

theorem sliceStr_length (s : Str) (a b : Nat) :
    (sliceStr s a b).length = min (b - a) (s.length - a) := by
  simp [sliceStr]

theorem chAt_eq_getElem (text : Str) (i : Nat) (h : i < text.length) :
    chAt text i = text[i] := by
  simp [chAt, List.getD_eq_getElem?_getD, List.getElem?_eq_getElem h]

theorem chAt_mem (text : Str) (i : Nat) (h : i < text.length) : chAt text i ∈ text := by
  rw [chAt_eq_getElem text i h]
  exact List.getElem_mem h

theorem drop_eq_chAt_cons (text : Str) (i : Nat) (h : i < text.length) :
    text.drop i = chAt text i :: text.drop (i + 1) := by
  rw [chAt_eq_getElem text i h]
  exact List.drop_eq_getElem_cons h

/-! ## Supporting lemmas: the tokenizer loops -/

theorem skipWhitespace_le (text : Str) :
    ∀ fuel pos, pos ≤ skipWhitespace text fuel pos := by
  intro fuel
  induction fuel with
  | zero => intro pos; exact Nat.le_refl pos
  | succ fuel ih =>
    intro pos
    have H1 := ih (pos + 1)
    simp only [skipWhitespace]
    repeat' split
    all_goals omega

theorem skipWhitespace_le_length (text : Str) :
    ∀ fuel pos, pos ≤ text.length → skipWhitespace text fuel pos ≤ text.length := by
  intro fuel
  induction fuel with
  | zero => intro pos hp; exact hp
  | succ fuel ih =>
    intro pos hp
    simp only [skipWhitespace]
    split
    case isTrue h =>
      have H1 := ih (pos + 1) (by omega)
      split
      · exact H1
      · exact hp
    case isFalse h => exact hp

theorem skipWhitespace_succ_sep (text : Str) (fuel pos : Nat)
    (h : pos < text.length) (hsep : isSep (chAt text pos) = true) :
    skipWhitespace text (fuel + 1) pos = skipWhitespace text fuel (pos + 1) := by
  rw [chAt_eq_getElem text pos h] at hsep
  simp only [skipWhitespace, dif_pos h, hsep, if_true]

theorem skipWhitespace_of_not_sep (text : Str) (fuel pos : Nat)
    (h : pos < text.length → isSep (chAt text pos) = false) :
    skipWhitespace text fuel pos = pos := by
  cases fuel with
  | zero => rfl
  | succ fuel =>
    simp only [skipWhitespace]
    split
    case isTrue hlt =>
      rw [← chAt_eq_getElem text pos hlt, h hlt]
      simp
    case isFalse hlt => rfl

theorem skipWhitespace_not_sep (text : Str) :
    ∀ fuel pos, text.length ≤ fuel + pos →
      skipWhitespace text fuel pos < text.length →
      isSep (chAt text (skipWhitespace text fuel pos)) = false := by
  intro fuel
  induction fuel with
  | zero =>
    intro pos hf hlt
    simp only [skipWhitespace] at hlt
    omega
  | succ fuel ih =>
    intro pos hf hlt
    by_cases h : pos < text.length
    · by_cases hsep : isSep (chAt text pos) = true
      · rw [skipWhitespace_succ_sep text fuel pos h hsep] at hlt ⊢
        exact ih (pos + 1) (by omega) hlt
      · have heq := skipWhitespace_of_not_sep text (fuel + 1) pos
          (fun _ => by simpa using hsep)
        rw [heq]
        simpa using hsep
    · have heq := skipWhitespace_of_not_sep text (fuel + 1) pos (fun hc => absurd hc h)
      rw [heq] at hlt
      exact absurd hlt h

theorem quotedLoop_le (text : Str) (q : Char) :
    ∀ fuel pos, pos ≤ (quotedLoop text q fuel pos).2 := by
  intro fuel
  induction fuel with
  | zero => intro pos; exact Nat.le_refl pos
  | succ fuel ih =>
    intro pos
    have H1 := ih (pos + 1)
    have H2 := ih (pos + 2)
    simp only [quotedLoop]
    repeat' split
    all_goals dsimp only
    all_goals omega

theorem quotedLoop_le_length (text : Str) (q : Char) :
    ∀ fuel pos, text.length ≤ fuel + pos → pos ≤ text.length →
      (quotedLoop text q fuel pos).2 ≤ text.length := by
  intro fuel
  induction fuel with
  | zero => intro pos _ hp; exact hp
  | succ fuel ih =>
    intro pos hf hp
    simp only [quotedLoop]
    split
    case isTrue h =>
      repeat' split
      all_goals dsimp only
      all_goals first
        | omega
        | exact ih _ (by omega) (by omega)
    case isFalse h => exact hp

theorem unquotedLoop_le (text : Str) :
    ∀ fuel pos, pos ≤ (unquotedLoop text fuel pos).2.2 := by
  intro fuel
  induction fuel with
  | zero => intro pos; exact Nat.le_refl pos
  | succ fuel ih =>
    intro pos
    simp only [unquotedLoop]
    split
    case isTrue h =>
      have H1 := ih (pos + 1)
      have H2 := ih (pos + 2)
      have HQ := quotedLoop_le text text[pos] fuel (pos + 1)
      have H3 := ih (quotedLoop text text[pos] fuel (pos + 1)).2
      repeat' split
      all_goals dsimp only
      all_goals omega
    case isFalse h => exact Nat.le_refl pos

theorem unquotedLoop_le_length (text : Str) :
    ∀ fuel pos, text.length ≤ fuel + pos → pos ≤ text.length →
      (unquotedLoop text fuel pos).2.2 ≤ text.length := by
  intro fuel
  induction fuel with
  | zero => intro pos _ hp; exact hp
  | succ fuel ih =>
    intro pos hf hp
    simp only [unquotedLoop]
    split
    case isTrue h =>
      have HQle := quotedLoop_le text text[pos] fuel (pos + 1)
      have HQlen := quotedLoop_le_length text text[pos] fuel (pos + 1)
        (by omega) (by omega)
      repeat' split
      all_goals dsimp only
      all_goals first
        | omega
        | exact ih _ (by omega) (by omega)
    case isFalse h => exact hp

theorem unquotedLoop_stop (text : Str) :
    ∀ fuel pos, text.length ≤ fuel + pos → pos ≤ text.length →
      (unquotedLoop text fuel pos).2.2 = text.length ∨
      ((unquotedLoop text fuel pos).2.2 < text.length ∧
        isSep (chAt text (unquotedLoop text fuel pos).2.2) = true) := by
  intro fuel
  induction fuel with
  | zero =>
    intro pos hf hp
    left
    simp only [unquotedLoop]
    omega
  | succ fuel ih =>
    intro pos hf hp
    simp only [unquotedLoop]
    split
    case isTrue h =>
      have HQle := quotedLoop_le text text[pos] fuel (pos + 1)
      have HQlen := quotedLoop_le_length text text[pos] fuel (pos + 1)
        (by omega) (by omega)
      repeat' split
      all_goals dsimp only
      all_goals first
        | exact ih _ (by omega) (by omega)
        | exact ih _ (by omega) HQlen
        | (right
           refine ⟨h, ?_⟩
           rw [chAt_eq_getElem text pos h]
           assumption)
    case isFalse h =>
      left
      dsimp only
      omega

theorem unquotedLoop_lt (text : Str) :
    ∀ fuel pos, text.length ≤ fuel + pos → pos < text.length →
      isSep (chAt text pos) = false → pos < (unquotedLoop text fuel pos).2.2 := by
  intro fuel
  induction fuel with
  | zero => intro pos hf hp _; omega
  | succ fuel ih =>
    intro pos hf hp hsep
    rw [chAt_eq_getElem text pos hp] at hsep
    simp only [unquotedLoop]
    split
    case isTrue h =>
      have H1 := unquotedLoop_le text fuel (pos + 1)
      have H2 := unquotedLoop_le text fuel (pos + 2)
      have HQle := quotedLoop_le text text[pos] fuel (pos + 1)
      have H3 := unquotedLoop_le text fuel (quotedLoop text text[pos] fuel (pos + 1)).2
      repeat' split
      all_goals dsimp only
      all_goals first
        | omega
        | simp_all
    case isFalse h => omega

theorem parseToken_fst (text : Str) (fuel pos : Nat) (h : pos < text.length) :
    (parseToken text fuel pos).1.start = pos ∧
    (parseToken text fuel pos).1.stop = (parseToken text fuel pos).2 ∧
    (parseToken text fuel pos).1.raw = sliceStr text pos (parseToken text fuel pos).2 := by
  simp only [parseToken, dif_pos h]
  split
  · dsimp only [parseQuoted]
    exact ⟨rfl, rfl, rfl⟩
  · dsimp only [parseUnquoted]
    exact ⟨rfl, rfl, rfl⟩

theorem parseToken_lt (text : Str) (fuel pos : Nat) (hf : text.length ≤ fuel + pos)
    (h : pos < text.length) (hsep : isSep (chAt text pos) = false) :
    pos < (parseToken text fuel pos).2 := by
  simp only [parseToken, dif_pos h]
  split
  · dsimp only [parseQuoted]
    have := quotedLoop_le text text[pos] fuel (pos + 1)
    omega
  · dsimp only [parseUnquoted]
    exact unquotedLoop_lt text fuel pos hf h hsep

theorem parseToken_le_length (text : Str) (fuel pos : Nat)
    (hf : text.length ≤ fuel + pos) (h : pos < text.length) :
    (parseToken text fuel pos).2 ≤ text.length := by
  simp only [parseToken, dif_pos h]
  split
  · dsimp only [parseQuoted]
    exact quotedLoop_le_length text text[pos] fuel (pos + 1) (by omega) (by omega)
  · dsimp only [parseUnquoted]
    exact unquotedLoop_le_length text fuel pos (by omega) (by omega)

theorem tokenizeLoop_ordered (text : Str) :
    ∀ fuel pos, text.length ≤ fuel + pos →
      TokensOrdered text pos (tokenizeLoop text fuel pos) := by
  intro fuel
  induction fuel with
  | zero =>
    intro pos _
    simp only [tokenizeLoop, TokensOrdered]
  | succ fuel ih =>
    intro pos hf
    simp only [tokenizeLoop]
    by_cases h : skipWhitespace text (fuel + 1) pos < text.length
    · rw [if_pos h]
      have hle := skipWhitespace_le text (fuel + 1) pos
      have hsep := skipWhitespace_not_sep text (fuel + 1) pos (by omega) h
      have hplt := parseToken_lt text (fuel + 1) (skipWhitespace text (fuel + 1) pos)
        (by omega) h hsep
      have hplen := parseToken_le_length text (fuel + 1) (skipWhitespace text (fuel + 1) pos)
        (by omega) h
      obtain ⟨hstart, hstop, hraw⟩ :=
        parseToken_fst text (fuel + 1) (skipWhitespace text (fuel + 1) pos) h
      refine ⟨?_, ?_, ?_, ?_, ?_⟩
      · rw [hstart]; omega
      · rw [hstart, hstop]; omega
      · rw [hstop]; omega
      · rw [hraw, hstart, hstop]
      · rw [hstop]
        exact ih _ (by omega)
    · rw [if_neg h]
      simp only [TokensOrdered]

theorem TokensOrdered_mem (text : Str) :
    ∀ toks lastEnd, TokensOrdered text lastEnd toks →
      ∀ t ∈ toks, lastEnd ≤ t.start ∧ t.start < t.stop ∧ t.stop ≤ text.length ∧
        t.raw = sliceStr text t.start t.stop := by
  intro toks
  induction toks with
  | nil => intro lastEnd _ t ht; cases ht
  | cons a rest ih =>
    intro lastEnd h t ht
    obtain ⟨h1, h2, h3, h4, h5⟩ := h
    rcases List.mem_cons.mp ht with rfl | ht
    · exact ⟨h1, h2, h3, h4⟩
    · obtain ⟨g1, g2, g3, g4⟩ := ih a.stop h5 t ht
      exact ⟨by omega, g2, g3, g4⟩

theorem TokensOrdered_chain' (text : Str) :
    ∀ toks lastEnd, TokensOrdered text lastEnd toks →
      List.Chain' (fun a b => a.stop ≤ b.start) toks := by
  intro toks
  induction toks with
  | nil => intro _ _; exact List.chain'_nil
  | cons a rest ih =>
    intro lastEnd h
    obtain ⟨_, _, _, _, h5⟩ := h
    cases rest with
    | nil => exact List.chain'_singleton a
    | cons b rest2 =>
      rw [List.chain'_cons]
      exact ⟨h5.1, ih a.stop h5⟩

theorem skipWhitespace_all_sep (text : Str) (hsep : ∀ c ∈ text, isSep c = true) :
    ∀ fuel pos, text.length ≤ fuel + pos → text.length ≤ skipWhitespace text fuel pos := by
  intro fuel
  induction fuel with
  | zero => intro pos hf; simpa [skipWhitespace] using hf
  | succ fuel ih =>
    intro pos hf
    by_cases h : pos < text.length
    · rw [skipWhitespace_succ_sep text fuel pos h (hsep _ (chAt_mem text pos h))]
      exact ih (pos + 1) (by omega)
    · rw [skipWhitespace_of_not_sep text (fuel + 1) pos (fun hc => absurd hc h)]
      omega

/-- **C9**: for every input string, `tokenize` returns a well-formed token
stream: every token satisfies `0 ≤ start < stop ≤ length` (hence its `raw`,
the source slice `text[start:stop]`, is non-empty), consecutive tokens occupy
strictly increasing pairwise-disjoint position ranges, and an input that
consists only of spaces and tabs — including the empty input — yields the
empty token list. -/
theorem tokenize_wellformed (text : Str) :
    (∀ t ∈ tokenize text, t.start < t.stop ∧ t.stop ≤ text.length ∧ t.raw ≠ []) ∧
    List.Chain' (fun a b => a.stop ≤ b.start) (tokenize text) ∧
    ((∀ c ∈ text, isSep c = true) → tokenize text = []) := by
  have hord : TokensOrdered text 0 (tokenize text) :=
    tokenizeLoop_ordered text (text.length + 1) 0 (by omega)
  refine ⟨?_, ?_, ?_⟩
  · intro t ht
    obtain ⟨_, h2, h3, h4⟩ := TokensOrdered_mem text (tokenize text) 0 hord t ht
    refine ⟨h2, h3, ?_⟩
    intro hnil
    rw [h4] at hnil
    have hlen := congrArg List.length hnil
    rw [sliceStr_length] at hlen
    simp only [List.length_nil] at hlen
    omega
  · exact TokensOrdered_chain' text (tokenize text) 0 hord
  · intro hsep
    have h := skipWhitespace_all_sep text hsep (text.length + 1) 0 (by omega)
    show tokenizeLoop text (text.length + 1) 0 = []
    simp only [tokenizeLoop]
    rw [if_neg (by omega)]

/-- Witness for C9: a separator-only input tokenizes to the empty list. -/
theorem tokenize_wellformed_witness : tokenize " \t ".toList = [] :=
  (tokenize_wellformed " \t ".toList).2.2 (by decide)

/-! ## Supporting lemmas for the detokenize round trip (C2) -/

theorem specSkip_le (text : Str) (pos : Nat) : pos ≤ specSkip text pos := by
  unfold specSkip
  split <;> omega

theorem specSkip_le_length (text : Str) (pos : Nat) (hp : pos ≤ text.length) :
    specSkip text pos ≤ text.length := by
  unfold specSkip
  split
  case isTrue h => omega
  case isFalse h => omega

theorem specSkip_not_sep (text : Str)
    (hadj : ∀ i, i + 1 < text.length →
      isSep (chAt text i) = false ∨ isSep (chAt text (i + 1)) = false)
    (pos : Nat) (h : specSkip text pos < text.length) :
    isSep (chAt text (specSkip text pos)) = false := by
  revert h
  unfold specSkip
  split
  case isTrue hc =>
    intro h
    rcases hadj pos h with hs | hs
    · exact absurd hc.2 (by simp [hs])
    · exact hs
  case isFalse hc =>
    intro h
    by_contra hs
    exact hc ⟨h, by simpa using hs⟩

theorem skipWhitespace_eq_specSkip (text : Str)
    (hadj : ∀ i, i + 1 < text.length →
      isSep (chAt text i) = false ∨ isSep (chAt text (i + 1)) = false) :
    ∀ fuel pos, text.length ≤ fuel + pos →
      skipWhitespace text fuel pos = specSkip text pos := by
  intro fuel pos hf
  by_cases hp : pos < text.length ∧ isSep (chAt text pos) = true
  · obtain ⟨hlt, hsep⟩ := hp
    obtain ⟨g, rfl⟩ : ∃ g, fuel = g + 1 := ⟨fuel - 1, by omega⟩
    rw [specSkip, if_pos ⟨hlt, hsep⟩, skipWhitespace_succ_sep text g pos hlt hsep]
    apply skipWhitespace_of_not_sep
    intro hlt2
    rcases hadj pos hlt2 with hc | hc
    · exact absurd hsep (by simp [hc])
    · exact hc
  · rw [specSkip, if_neg hp]
    apply skipWhitespace_of_not_sep
    intro hlt
    by_contra hc
    exact hp ⟨hlt, by simpa using hc⟩

theorem tokenizeLoop_of_ge (text : Str) (fuel pos : Nat) (h : text.length ≤ pos) :
    tokenizeLoop text fuel pos = [] := by
  cases fuel with
  | zero => rfl
  | succ fuel =>
    simp only [tokenizeLoop]
    rw [if_neg]
    have := skipWhitespace_le text (fuel + 1) pos
    omega

theorem parseToken_stop_no_quote (text : Str) (fuel pos : Nat)
    (hf : text.length ≤ fuel + pos) (h : pos < text.length)
    (hq : chAt text pos ≠ '"' ∧ chAt text pos ≠ '\'') :
    (parseToken text fuel pos).2 = text.length ∨
    ((parseToken text fuel pos).2 < text.length ∧
      isSep (chAt text (parseToken text fuel pos).2) = true) := by
  simp only [parseToken, dif_pos h]
  rw [← chAt_eq_getElem text pos h]
  rw [if_neg (by simp [hq.1, hq.2])]
  dsimp only [parseUnquoted]
  exact unquotedLoop_stop text fuel pos hf (by omega)

theorem joinWith_cons_ne (s : Str) (l : List Str) (hl : l ≠ []) :
    joinWith [' '] (s :: l) = s ++ [' '] ++ joinWith [' '] l := by
  cases l with
  | nil => exact absurd rfl hl
  | cons a t => rfl

theorem detok_tokenizeLoop (text : Str)
    (hq : ∀ c ∈ text, ¬(c = '"' ∨ c = '\''))
    (hspace : ∀ c ∈ text, isSep c = true → c = ' ')
    (htrail : 0 < text.length → isSep (chAt text (text.length - 1)) = false)
    (hadj : ∀ i, i + 1 < text.length →
      isSep (chAt text i) = false ∨ isSep (chAt text (i + 1)) = false) :
    ∀ fuel pos, text.length ≤ fuel + pos → pos ≤ text.length →
      joinWith [' '] ((tokenizeLoop text fuel pos).map Token.raw) =
        text.drop (specSkip text pos) := by
  intro fuel
  induction fuel with
  | zero =>
    intro pos hf hp
    have hpos : pos = text.length := by omega
    subst hpos
    simp only [tokenizeLoop, List.map_nil, joinWith]
    exact (List.drop_eq_nil_of_le (specSkip_le text _)).symm
  | succ fuel ih =>
    intro pos hf hp
    have hskip : skipWhitespace text (fuel + 1) pos = specSkip text pos :=
      skipWhitespace_eq_specSkip text hadj (fuel + 1) pos (by omega)
    simp only [tokenizeLoop, hskip]
    by_cases h : specSkip text pos < text.length
    · rw [if_pos h]
      have hp1le := specSkip_le text pos
      have hsep1 : isSep (chAt text (specSkip text pos)) = false :=
        specSkip_not_sep text hadj pos h
      have hq1 : chAt text (specSkip text pos) ≠ '"' ∧
          chAt text (specSkip text pos) ≠ '\'' := by
        have hh := hq (chAt text (specSkip text pos)) (chAt_mem text _ h)
        push_neg at hh
        exact hh
      have hstop := parseToken_stop_no_quote text (fuel + 1) (specSkip text pos)
        (by omega) h hq1
      have hlt := parseToken_lt text (fuel + 1) (specSkip text pos) (by omega) h hsep1
      have hlen := parseToken_le_length text (fuel + 1) (specSkip text pos) (by omega) h
      obtain ⟨hstart, hstop2, hraw⟩ := parseToken_fst text (fuel + 1) (specSkip text pos) h
      rcases hstop with hend | ⟨hlt2, hsep2⟩
      · have hrest : tokenizeLoop text fuel (parseToken text (fuel + 1)
            (specSkip text pos)).2 = [] :=
          tokenizeLoop_of_ge text fuel _ (by omega)
        rw [hrest]
        simp only [List.map_cons, List.map_nil]
        show joinWith [' '] [(parseToken text (fuel + 1) (specSkip text pos)).1.raw] =
          text.drop (specSkip text pos)
        simp only [joinWith]
        rw [hraw, hend]
        exact sliceStr_to_length text _
      · have hne : (parseToken text (fuel + 1) (specSkip text pos)).2 + 1 <
            text.length := by
          rcases Nat.lt_or_ge ((parseToken text (fuel + 1) (specSkip text pos)).2 + 1)
            text.length with hc | hc
          · exact hc
          · have heq : (parseToken text (fuel + 1) (specSkip text pos)).2 =
                text.length - 1 := by omega
            rw [heq] at hsep2
            exact absurd (htrail (by omega)) (by simp [hsep2])
        have hnadj : isSep (chAt text ((parseToken text (fuel + 1)
            (specSkip text pos)).2 + 1)) = false := by
          rcases hadj (parseToken text (fuel + 1) (specSkip text pos)).2 hne with hc | hc
          · exact absurd hsep2 (by simp [hc])
          · exact hc
        have hspec2 : specSkip text (parseToken text (fuel + 1)
            (specSkip text pos)).2 = (parseToken text (fuel + 1) (specSkip text pos)).2
            + 1 := by
          rw [specSkip, if_pos ⟨hlt2, hsep2⟩]
        have hih := ih (parseToken text (fuel + 1) (specSkip text pos)).2
          (by omega) (by omega)
        obtain ⟨g, rfl⟩ : ∃ g, fuel = g + 1 := ⟨fuel - 1, by omega⟩
        have hskip2 : skipWhitespace text (g + 1) (parseToken text (g + 1 + 1)
            (specSkip text pos)).2 = specSkip text (parseToken text (g + 1 + 1)
            (specSkip text pos)).2 :=
          skipWhitespace_eq_specSkip text hadj (g + 1) _ (by omega)
        have hrest_ne : tokenizeLoop text (g + 1) (parseToken text (g + 1 + 1)
            (specSkip text pos)).2 ≠ [] := by
          simp only [tokenizeLoop, hskip2, hspec2]
          rw [if_pos hne]
          simp
        rw [List.map_cons,
          joinWith_cons_ne _ _ (by simpa using hrest_ne)]
        rw [hih, hspec2, hraw]
        have hchar : chAt text (parseToken text (g + 1 + 1) (specSkip text pos)).2 =
            ' ' := hspace _ (chAt_mem text _ hlt2) hsep2
        calc sliceStr text (specSkip text pos)
              (parseToken text (g + 1 + 1) (specSkip text pos)).2 ++ [' '] ++
              text.drop ((parseToken text (g + 1 + 1) (specSkip text pos)).2 + 1)
            = sliceStr text (specSkip text pos)
                (parseToken text (g + 1 + 1) (specSkip text pos)).2 ++
                (chAt text (parseToken text (g + 1 + 1) (specSkip text pos)).2 ::
                  text.drop ((parseToken text (g + 1 + 1) (specSkip text pos)).2 + 1)) := by
              rw [List.append_assoc, hchar]
              rfl
          _ = sliceStr text (specSkip text pos)
                (parseToken text (g + 1 + 1) (specSkip text pos)).2 ++
                text.drop (parseToken text (g + 1 + 1) (specSkip text pos)).2 := by
              rw [← drop_eq_chAt_cons text _ hlt2]
          _ = text.drop (specSkip text pos) :=
              sliceStr_append_drop text _ _ (by omega)
    · rw [if_neg h]
      simp only [List.map_nil, joinWith]
      exact (List.drop_eq_nil_of_le (by omega)).symm

/-- **C2** (amended): `detokenize (tokenize s) = s` holds for every input `s`
that contains no quote characters, whose separators are single spaces (no
tabs, no runs of more than one separator), and that has no leading and no
trailing separator.  (Beyond the claim's stated conditions, the hypotheses
exclude quote characters, tab separators and a leading separator: each of
those makes the round trip fail, see the counterexample.) -/
theorem detokenize_tokenize (text : Str)
    (hq : ∀ c ∈ text, ¬(c = '"' ∨ c = '\''))
    (hspace : ∀ c ∈ text, isSep c = true → c = ' ')
    (hlead : 0 < text.length → isSep (chAt text 0) = false)
    (htrail : 0 < text.length → isSep (chAt text (text.length - 1)) = false)
    (hadj : ∀ i < text.length - 1,
      isSep (chAt text i) = false ∨ isSep (chAt text (i + 1)) = false) :
    detokenize (tokenize text) = text := by
  have hadj2 : ∀ i, i + 1 < text.length →
      isSep (chAt text i) = false ∨ isSep (chAt text (i + 1)) = false :=
    fun i hi => hadj i (by omega)
  have h := detok_tokenizeLoop text hq hspace htrail hadj2 (text.length + 1) 0
    (by omega) (by omega)
  have hs : specSkip text 0 = 0 := by
    rw [specSkip]
    rw [if_neg]
    intro hc
    exact absurd hc.2 (by simp [hlead hc.1])
  calc detokenize (tokenize text)
      = text.drop (specSkip text 0) := h
    _ = text.drop 0 := by rw [hs]
    _ = text := List.drop_zero text

/-- Witness for C2 at a concrete input with single-space separators. -/
theorem detokenize_tokenize_witness :
    detokenize (tokenize "gcc -O2 main.c".toList) = "gcc -O2 main.c".toList :=
  detokenize_tokenize "gcc -O2 main.c".toList (by decide) (by decide) (by decide)
    (by decide) (by decide)

/-- Counterexample for C2 as stated: `"'a'b"` has no separators at all — so
no separator runs and no trailing separator — yet a quoted section ends
mid-token, the tokenizer splits it into two tokens, and joining their raw
texts with single spaces inserts a space that was not in the input. -/
theorem detokenize_tokenize_cex :
    detokenize (tokenize "'a'b".toList) ≠ "'a'b".toList := by decide

/-! ## Supporting lemmas for the styling partition (C1) -/

theorem runsText_append (a b : List (StyleTag × Str)) :
    runsText (a ++ b) = runsText a ++ runsText b := by
  induction a with
  | nil => rfl
  | cons x xs ih => simp [runsText, ih]

theorem matchToken_token (patterns : List (RegexPattern × Flag)) (token : Token) :
    (matchToken patterns token).token = token := by
  cases hfs : patterns.findSome? (fun pf => (pf.1 token.value).map fun m => (m, pf.2)) with
  | none => simp [matchToken, hfs]
  | some mf => simp [matchToken, hfs]

theorem runsText_styleGroupsGo (v : Str) (colors : List ParsedColor)
    (category : String) :
    ∀ gs i lastPos, groupsOrdered v lastPos gs = true → lastPos ≤ v.length →
      runsText (styleGroupsGo v colors category gs i lastPos) = v.drop lastPos := by
  intro gs
  induction gs with
  | nil =>
    intro i lastPos _ hle
    simp only [styleGroupsGo]
    by_cases h : lastPos < v.length
    · rw [if_pos h]
      simp [runsText]
    · rw [if_neg h]
      simp only [runsText]
      exact (List.drop_eq_nil_of_le (by omega)).symm
  | cons g rest ih =>
    intro i lastPos hord hle
    simp only [groupsOrdered, Bool.and_eq_true, decide_eq_true_eq] at hord
    obtain ⟨⟨⟨⟨h1, h2⟩, h3⟩, h4⟩, h5⟩ := hord
    simp only [styleGroupsGo, runsText_append, runsText]
    rw [ih (i + 1) g.stop h5 h3]
    by_cases hgap : lastPos < g.start
    · rw [if_pos hgap]
      simp only [runsText, List.append_nil]
      rw [h4]
      calc sliceStr v lastPos g.start ++
            (sliceStr v g.start g.stop ++ v.drop g.stop)
          = sliceStr v lastPos g.start ++ v.drop g.start := by
            rw [sliceStr_append_drop v g.start g.stop (by omega)]
        _ = v.drop lastPos := sliceStr_append_drop v lastPos g.start (by omega)
    · rw [if_neg hgap]
      simp only [runsText, List.nil_append]
      have hls : lastPos = g.start := by omega
      rw [h4, hls]
      exact sliceStr_append_drop v g.start g.stop (by omega)

theorem runsText_styleGroups (v : Str) (groups : List CaptureGroup)
    (colors : List ParsedColor) (category : String)
    (h : groupsOrdered v 0 (groups.insertionSort fun a b => a.start ≤ b.start) = true) :
    runsText (styleGroups v groups colors category) = v := by
  rw [styleGroups, runsText_styleGroupsGo v colors category _ 0 0 h (by omega),
    List.drop_zero]

theorem runsText_styleResultsGo (text : Str) (catColors : String → List ParsedColor)
    (patterns : List (RegexPattern × Flag)) :
    ∀ toks i lastEnd, TokensOrdered text lastEnd toks → lastEnd ≤ text.length →
      (∀ t ∈ toks, t.raw = t.value) →
      (∀ r ∈ matchTokensGo patterns toks i,
        groupsOrdered r.token.value 0
          (r.groups.insertionSort fun a b => a.start ≤ b.start) = true) →
      runsText (styleResultsGo text catColors false none
        (matchTokensGo patterns toks i) lastEnd) = text.drop lastEnd := by
  intro toks
  induction toks with
  | nil =>
    intro i lastEnd _ hle _ _
    simp only [matchTokensGo, styleResultsGo]
    by_cases h : lastEnd < text.length
    · rw [if_pos h]
      simp [runsText]
    · rw [if_neg h]
      simp only [runsText]
      exact (List.drop_eq_nil_of_le (by omega)).symm
  | cons t rest ih =>
    intro i lastEnd hord hle hraw hgroups
    obtain ⟨h1, h2, h3, h4, h5⟩ := hord
    have hvt : t.raw = t.value := hraw t (List.mem_cons_self t rest)
    simp only [matchTokensGo] at hgroups ⊢
    have hg0 := hgroups _ (List.mem_cons_self _ _)
    have hgtail : ∀ r ∈ matchTokensGo patterns rest (i + 1),
        groupsOrdered r.token.value 0
          (r.groups.insertionSort fun a b => a.start ≤ b.start) = true :=
      fun r hr => hgroups r (List.mem_cons_of_mem _ hr)
    have key : ∀ r : MatchResult, r.token = t →
        groupsOrdered t.value 0
          (r.groups.insertionSort fun a b => a.start ≤ b.start) = true →
        runsText (styleResultsGo text catColors false none
          (r :: matchTokensGo patterns rest (i + 1)) lastEnd) = text.drop lastEnd := by
      intro r hrt hgr
      have hrest := ih (i + 1) t.stop h5 h3
        (fun u hu => hraw u (List.mem_cons_of_mem t hu)) hgtail
      simp only [styleResultsGo, hrt, runsText_append]
      rw [hrest]
      have final : ∀ body : List (StyleTag × Str),
          runsText body = sliceStr text t.start t.stop →
          runsText (if lastEnd < t.start
              then [(StyleTag.plain, sliceStr text lastEnd t.start)] else []) ++
            runsText body ++ text.drop t.stop = text.drop lastEnd := by
        intro body hb
        rw [hb]
        by_cases hgap : lastEnd < t.start
        · rw [if_pos hgap]
          simp only [runsText, List.append_nil]
          calc sliceStr text lastEnd t.start ++ sliceStr text t.start t.stop ++
                text.drop t.stop
              = sliceStr text lastEnd t.start ++
                (sliceStr text t.start t.stop ++ text.drop t.stop) :=
                List.append_assoc _ _ _
            _ = sliceStr text lastEnd t.start ++ text.drop t.start := by
                rw [sliceStr_append_drop text t.start t.stop (by omega)]
            _ = text.drop lastEnd := sliceStr_append_drop text lastEnd t.start (by omega)
        · rw [if_neg hgap]
          simp only [runsText, List.nil_append]
          have hls : lastEnd = t.start := by omega
          rw [hls]
          exact sliceStr_append_drop text t.start t.stop (by omega)
      apply final
      split
      · simp only [runsText, List.append_nil]
        exact h4
      · rw [runsText_styleGroups t.value r.groups _ _ hgr, ← hvt]
        exact h4
    by_cases hi : i = 0
    · rw [if_pos hi] at hg0 ⊢
      exact key _ rfl hg0
    · rw [if_neg hi] at hg0 ⊢
      rw [matchToken_token patterns t] at hg0
      exact key _ (matchToken_token patterns t) hg0

/-- **C1** (amended): for every buffer in which every token's `raw` equals
its `value` (no quoted tokens, no escape sequences), and every compiled
pattern table whose match results carry well-formed capture groups — sorted
by `start` they are pairwise non-overlapping, in-bounds slices of the token
value, as Python `re` yields whenever no capture group nests inside another —
the concatenation of the styled runs emitted by the lexer/styler (token runs
plus inter-token whitespace runs) equals the buffer text, for any
category-color configuration.  (As stated the claim fails in two ways:
quoted tokens lose their quotes, because every match result carries at least
one capture group and the group path emits `value`, see the counterexample;
and nested capture groups duplicate text even on unquoted buffers, see
`styleGroups_nested_example`.) -/
theorem styling_partition (text : Str) (patterns : List (RegexPattern × Flag))
    (catColors : String → List ParsedColor)
    (hraw : ∀ t ∈ tokenize text, t.raw = t.value)
    (hgroups : ∀ r ∈ matchTokens patterns (tokenize text),
      groupsOrdered r.token.value 0
        (r.groups.insertionSort fun a b => a.start ≤ b.start) = true) :
    runsText (styleResults (matchTokens patterns (tokenize text)) text catColors
      false none) = text := by
  have hord : TokensOrdered text 0 (tokenize text) :=
    tokenizeLoop_ordered text (text.length + 1) 0 (by omega)
  have h := runsText_styleResultsGo text catColors patterns (tokenize text) 0 0 hord
    (by omega) hraw hgroups
  simpa [styleResults, matchTokens] using h

/-- With overlapping (nested) capture groups — as a regex such as `((a)b)`
produces on `ab`: group 1 spans `[0,2)` and group 2 spans `[0,1)` —
`_style_groups` emits `ab`, `a`, then the suffix `b`, duplicating text.
This is why `styling_partition` assumes non-overlapping groups. -/
theorem styleGroups_nested_example :
    runsText (styleGroups "ab".toList
      [{ value := "ab".toList, start := 0, stop := 2, groupIndex := 1 },
       { value := "a".toList, start := 0, stop := 1, groupIndex := 2 }]
      [whiteColor] "Default") = "abab".toList := by decide

/-- Witness for C1 at a concrete unquoted buffer with an empty pattern table
(every token then carries one whole-token group, which is well formed). -/
theorem styling_partition_witness :
    runsText (styleResults (matchTokens [] (tokenize "gcc -O2".toList))
      "gcc -O2".toList (fun _ => []) false none) = "gcc -O2".toList :=
  styling_partition "gcc -O2".toList [] (fun _ => []) (by decide) (by decide)

/-- Counterexample for C1 as stated: for a buffer with a quoted token the
emitted runs concatenate to the token's `value` (`a`), not to the buffer
text (`'a'`): every match result carries at least one capture group, so the
styler always emits `value`, losing the quotes. -/
theorem styling_partition_cex :
    runsText (styleResults (matchTokens [] (tokenize "'a'".toList)) "'a'".toList
      (fun _ => []) false none) ≠ "'a'".toList := by decide

/-! ## Matcher totality (C5) -/

/-- **C5**: matching is total — `match_token` is a function producing exactly
one `MatchResult` per token — and for a token matched by no compiled pattern
the result has category `"Default"`, `matched = false`, no flag, and exactly
one synthetic capture group with index 0 spanning the whole token value. -/
theorem matchToken_default (patterns : List (RegexPattern × Flag)) (token : Token)
    (h : ∀ p ∈ patterns, p.1 token.value = none) :
    matchToken patterns token =
      { token := token, category := "Default", flag := none,
        groups := [{ value := token.value, start := 0, stop := token.value.length,
                     groupIndex := 0 }],
        matched := false } := by
  have hnone : patterns.findSome?
      (fun pf => (pf.1 token.value).map fun m => (m, pf.2)) = none := by
    rw [List.findSome?_eq_none_iff]
    intro p hp
    rw [h p hp]
    rfl
  simp only [matchToken, hnone]

/-- Witness for C5: a concrete token against an empty compiled-pattern list. -/
theorem matchToken_default_witness :
    matchToken [] { value := "-O2".toList, start := 0, stop := 3, raw := "-O2".toList } =
      { token := { value := "-O2".toList, start := 0, stop := 3, raw := "-O2".toList },
        category := "Default", flag := none,
        groups := [{ value := "-O2".toList, start := 0, stop := 3, groupIndex := 0 }],
        matched := false } :=
  matchToken_default []
    { value := "-O2".toList, start := 0, stop := 3, raw := "-O2".toList }
    (by simp)

/-! ## Warnings toggle (C7) -/

/-- **C7** (amended): toggling is an involution for every warning that does
not itself begin with the prefix twice.  (As stated, the claim fails for
warnings beginning with a doubled prefix, such as `no-no-unused`: the first
toggle strips one prefix, and the second strips another instead of restoring
the first — see the counterexample.) -/
theorem warnToggle_involution (pfx w : Str)
    (h : (pfx ++ pfx).isPrefixOf w = false) :
    warnToggle pfx (warnToggle pfx w) = w := by
  by_cases hp : pfx.isPrefixOf w = true
  · obtain ⟨r, rfl⟩ := List.isPrefixOf_iff_prefix.mp hp
    have h1 : warnToggle pfx (pfx ++ r) = r := by
      simp only [warnToggle]
      rw [if_pos hp]
      exact List.drop_left _ _
    rw [h1]
    have hr : ¬ pfx.isPrefixOf r = true := by
      intro hc
      obtain ⟨s, rfl⟩ := List.isPrefixOf_iff_prefix.mp hc
      have hpre : (pfx ++ pfx).isPrefixOf (pfx ++ (pfx ++ s)) = true := by
        rw [List.isPrefixOf_iff_prefix, ← List.append_assoc]
        exact List.prefix_append _ _
      rw [hpre] at h
      cases h
    simp only [warnToggle]
    rw [if_neg hr]
  · have h1 : warnToggle pfx w = pfx ++ w := by
      simp only [warnToggle]
      rw [if_neg hp]
    rw [h1]
    simp only [warnToggle]
    rw [if_pos (by rw [List.isPrefixOf_iff_prefix]; exact List.prefix_append _ _)]
    exact List.drop_left _ _

/-- Witness for C7 at the default prefix and a concrete warning. -/
theorem warnToggle_involution_witness :
    warnToggle "no-".toList (warnToggle "no-".toList "unused-variable".toList) =
      "unused-variable".toList :=
  warnToggle_involution "no-".toList "unused-variable".toList (by decide)

/-- Counterexample for C7 as stated: with prefix `no-`, toggling the warning
`no-no-unused` twice yields `unused`, not the original string. -/
theorem warnToggle_involution_cex :
    warnToggle "no-".toList (warnToggle "no-".toList "no-no-unused".toList) ≠
      "no-no-unused".toList := by decide

/-! ## Color combination (C8) -/

/-- **C8** (amended): combining a non-combining base with the empty overlay
(no attribute explicitly set) is the identity.  (As stated — for *every*
base — the claim fails when `base.combine = true`: `combine_colors` always
returns a style with `combine = False`, see the counterexample.) -/
theorem combineColors_empty_overlay (base : ParsedColor) (h : base.combine = false) :
    combineColors base {} = base := by
  cases base
  simp only at h
  subst h
  rfl

/-- Witness for C8 at a concrete non-combining base style. -/
theorem combineColors_empty_overlay_witness :
    combineColors { fg := some (ColorVal.str "red"), bold := some true } {} =
      { fg := some (ColorVal.str "red"), bold := some true } :=
  combineColors_empty_overlay { fg := some (ColorVal.str "red"), bold := some true } rfl

/-- Counterexample for C8 as stated: for a base with the `combine` flag set,
combining with the empty overlay clears the flag, so the result differs from
the base. -/
theorem combineColors_empty_overlay_cex :
    combineColors { combine := true } {} ≠ ({ combine := true } : ParsedColor) := by
  decide

/-! ## Multiple-choice seed scenario (C6) -/

/-- Counterexample for C6 as stated: after selecting `address`, the
completion list still contains `none` — the code only refuses to add options
*after* a must-be-last selection; a must-be-last option itself stays
available (it would become the new last element). -/
theorem multipleChoice_seed_cex :
    "none".toList ∈ mcGetCompletions sanitizeOptions ',' 999 "address".toList := by
  decide

/-- **C6** (amended): for options `["none$", "address", "undefined", "$all$"]`
with delimiter `,`: completions at the empty partial are exactly
`["none", "address", "undefined", "all"]`; after the selection `address` the
completions drop `all` (must-be-only) but keep `none` (a must-be-last option
may still be appended as the new last element), giving
`["none", "undefined"]`; `validate("all")` accepts and
`validate("all,address")` rejects. -/
theorem multipleChoice_seed :
    mcGetCompletions sanitizeOptions ',' 999 [] =
      ["none".toList, "address".toList, "undefined".toList, "all".toList] ∧
    mcGetCompletions sanitizeOptions ',' 999 "address".toList =
      ["none".toList, "undefined".toList] ∧
    (mcValidate sanitizeOptions ',' 0 999 "all".toList).valid = true ∧
    (mcValidate sanitizeOptions ',' 0 999 "all,address".toList).valid = false := by
  decide

/-! ## Launcher peeling is iterative (C4) -/

/-- Counterexample for C4 as stated: in `ccache distcc gcc` the detected
program is `gcc`, not `distcc` — the claim says the program should be
`distcc` because peeling is one-pass. -/
theorem findCompiler_onepass_cex :
    (findCompiler (tokenize "ccache distcc gcc".toList)).map
      ProgramMatch.canonicalName ≠ some "distcc".toList := by decide

/-- **C4** (amended): launcher peeling is iterative and does nest — after a
launcher and its arguments are skipped, a next token whose basename is again
a known launcher is peeled as well, and the recorded launcher is the last
(innermost) one.  In `ccache distcc gcc` the program is `gcc` at index 2,
with `distcc` recorded as the launcher. -/
theorem findCompiler_peels_repeatedly :
    findCompiler (tokenize "ccache distcc gcc".toList) =
      some { canonicalName := "gcc".toList, matchedName := "gcc".toList,
             source := "builtin", tokenIndex := 2,
             launcher := some { name := "distcc".toList, tokenIndex := 1,
                                argsEndIndex := 2 } } := by decide

/-! ## Launcher argument ranges (C3, C10) -/

theorem skipLauncherArgs_le (tokens : List Token) (flags : List Str) :
    ∀ fuel i, i ≤ skipLauncherArgs tokens flags fuel i := by
  intro fuel
  induction fuel with
  | zero => intro i; exact Nat.le_refl i
  | succ fuel ih =>
    intro i
    have H1 := ih (i + 1)
    have H2 := ih (i + 2)
    simp only [skipLauncherArgs]
    repeat' split
    all_goals omega

theorem skipLauncherArgs_spec (tokens : List Token) (flags : List Str) :
    ∀ fuel i k, i ≤ k → k < skipLauncherArgs tokens flags fuel i →
      startsWithDash (getTok tokens k).value = true ∨
      (1 ≤ k ∧ startsWithDash (getTok tokens (k - 1)).value = true ∧
        flagTakesArg flags (getTok tokens (k - 1)).value = true ∧
        (getTok tokens (k - 1)).value.contains '=' = false) := by
  intro fuel
  induction fuel with
  | zero =>
    intro i k hik hk
    simp only [skipLauncherArgs] at hk
    omega
  | succ fuel ih =>
    intro i k hik hk
    simp only [skipLauncherArgs] at hk
    split at hk
    case isTrue h1 =>
      split at hk
      case isTrue hdash =>
        split at hk
        case isTrue htakes =>
          rcases Nat.lt_or_ge k (i + 1) with hki | hki
          · have hkeq : k = i := by omega
            subst hkeq
            exact Or.inl hdash
          · rcases Nat.lt_or_ge k (i + 2) with hki2 | hki2
            · have hk1 : k - 1 = i := by omega
              right
              rw [Bool.and_eq_true] at htakes
              obtain ⟨ht1, ht2⟩ := htakes
              refine ⟨by omega, ?_, ?_, ?_⟩ <;> rw [hk1]
              · exact hdash
              · exact ht1
              · simpa using ht2
            · exact ih (i + 2) k hki2 hk
        case isFalse htakes =>
          rcases Nat.lt_or_ge k (i + 1) with hki | hki
          · have hkeq : k = i := by omega
            subst hkeq
            exact Or.inl hdash
          · exact ih (i + 1) k hki hk
      case isFalse hdash => omega
    case isFalse h1 => omega

theorem findCompilerGo_launcherOk (tokens : List Token) :
    ∀ fuel i li0, (∀ li, li0 = some li → LauncherOk tokens li) →
      ∀ pm, findCompilerGo tokens fuel i li0 = some pm →
        ∀ li, pm.launcher = some li → LauncherOk tokens li := by
  intro fuel
  induction fuel with
  | zero =>
    intro i li0 hinv pm hpm
    simp only [findCompilerGo] at hpm
    exact absurd hpm (by simp)
  | succ fuel ih =>
    intro i li0 hinv pm hpm
    simp only [findCompilerGo] at hpm
    split at hpm
    case isTrue h =>
      split at hpm
      case h_1 launcherHit heq =>
        refine ih _ _ ?_ pm hpm
        intro li hli
        cases hli
        exact ⟨launcherHit.2, heq, fuel + 1, rfl⟩
      case h_2 heq =>
        split at hpm
        case h_1 pm2 heq2 =>
          cases hpm
          intro li hli
          exact hinv li (by simpa using hli)
        case h_2 heq2 =>
          cases hpm
          intro li hli
          exact hinv li (by simpa using hli)
    case isFalse h => cases hpm

/-- **C3** (amended): when a launcher is detected, every token strictly
between `launcher.token_index` and `launcher.args_end_index` either starts
with `-` or is the separate argument of the immediately preceding
argument-taking launcher flag (a flag token that starts with `-`, is one of
the launcher's argument-taking flags, and carries no `=`).  (As stated — all
such tokens start with `-` — the claim fails: a flag like bear's `-o` makes
the loop also skip the following argument token, which need not start with
`-`; see the counterexample.) -/
theorem findCompiler_launcher_args (tokens : List Token) (pm : ProgramMatch)
    (li : LauncherInfo) (hfc : findCompiler tokens = some pm)
    (hli : pm.launcher = some li) (k : Nat) (hk1 : li.tokenIndex < k)
    (hk2 : k < li.argsEndIndex) :
    startsWithDash (getTok tokens k).value = true ∨
    (startsWithDash (getTok tokens (k - 1)).value = true ∧
      ∃ flags, isLauncher (baseName (getTok tokens li.tokenIndex).value) =
          some (li.name, flags) ∧
        flagTakesArg flags (getTok tokens (k - 1)).value = true ∧
        (getTok tokens (k - 1)).value.contains '=' = false) := by
  have hok : LauncherOk tokens li := by
    by_cases he : tokens.isEmpty
    · rw [findCompiler, if_pos he] at hfc
      cases hfc
    · rw [findCompiler, if_neg he] at hfc
      exact findCompilerGo_launcherOk tokens (tokens.length + 1) 0 none
        (fun li h => by cases h) pm hfc li hli
  obtain ⟨flags, hfl, fuel, hend⟩ := hok
  have hspec := skipLauncherArgs_spec tokens flags fuel (li.tokenIndex + 1) k
    (by omega) (by omega)
  rcases hspec with hd | ⟨hk1', hdash, htakes, hni⟩
  · exact Or.inl hd
  · exact Or.inr ⟨hdash, flags, hfl, htakes, hni⟩

/-- Witness for C3 at `bear -o out.json gcc`, token index 2 (`out.json`):
the right disjunct holds — it is the argument of bear's `-o`. -/
theorem findCompiler_launcher_args_witness :
    startsWithDash (getTok (tokenize "bear -o out.json gcc".toList) 2).value = true ∨
    (startsWithDash (getTok (tokenize "bear -o out.json gcc".toList) 1).value = true ∧
      ∃ flags, isLauncher (baseName
          (getTok (tokenize "bear -o out.json gcc".toList) 0).value) =
          some ("bear".toList, flags) ∧
        flagTakesArg flags (getTok (tokenize "bear -o out.json gcc".toList) 1).value =
          true ∧
        (getTok (tokenize "bear -o out.json gcc".toList) 1).value.contains '=' =
          false) :=
  findCompiler_launcher_args (tokenize "bear -o out.json gcc".toList)
    { canonicalName := "gcc".toList, matchedName := "gcc".toList, source := "builtin",
      tokenIndex := 3,
      launcher := some { name := "bear".toList, tokenIndex := 0, argsEndIndex := 3 } }
    { name := "bear".toList, tokenIndex := 0, argsEndIndex := 3 }
    (by decide) (by decide) 2 (by decide) (by decide)

/-- Counterexample for C3 as stated: in `bear -o out.json gcc` the launcher
range is `(0, 3)`, and the token at index 2 — `out.json`, the argument of
`-o` — does not start with `-`. -/
theorem findCompiler_launcher_args_cex :
    findCompiler (tokenize "bear -o out.json gcc".toList) =
      some { canonicalName := "gcc".toList, matchedName := "gcc".toList,
             source := "builtin", tokenIndex := 3,
             launcher := some { name := "bear".toList, tokenIndex := 0,
                                argsEndIndex := 3 } } ∧
    startsWithDash (getTok (tokenize "bear -o out.json gcc".toList) 2).value =
      false := by decide

theorem skipLauncherArgs_all_dash (tokens : List Token) (flags : List Str)
    (hdash : ∀ k < tokens.length, 1 ≤ k →
      startsWithDash (getTok tokens k).value = true) :
    ∀ fuel i, tokens.length ≤ fuel + i → 1 ≤ i →
      tokens.length ≤ skipLauncherArgs tokens flags fuel i := by
  intro fuel
  induction fuel with
  | zero => intro i hf _; simpa [skipLauncherArgs] using hf
  | succ fuel ih =>
    intro i hf hi
    simp only [skipLauncherArgs]
    split
    case isTrue h =>
      rw [if_pos (hdash i h hi)]
      split
      · exact ih (i + 2) (by omega) (by omega)
      · exact ih (i + 1) (by omega) (by omega)
    case isFalse h => omega

theorem findCompilerGo_of_ge (tokens : List Token) (fuel i : Nat)
    (li0 : Option LauncherInfo) (h : tokens.length ≤ i) :
    findCompilerGo tokens fuel i li0 = none := by
  cases fuel with
  | zero => rfl
  | succ fuel =>
    simp only [findCompilerGo]
    rw [if_neg (by omega)]

/-- **C10**: for every non-empty token list whose first token's basename is a
known launcher and whose remaining tokens all start with `-` (including the
single-token case), `find_compiler` returns no program match, and
`parse_command_line` returns a `CommandLineParts` in which all four parts are
empty — the launcher segment is reported empty even though a launcher token
is present. -/
theorem launcher_only_empty_parts (tokens : List Token) (hne : tokens ≠ [])
    (hl : (isLauncher (baseName (getTok tokens 0).value)).isSome = true)
    (hdash : ∀ k < tokens.length, 1 ≤ k →
      startsWithDash (getTok tokens k).value = true) :
    findCompiler tokens = none ∧ parseCommandLine tokens = {} := by
  have hlen : 0 < tokens.length := List.length_pos.mpr hne
  obtain ⟨hit, hhit⟩ := Option.isSome_iff_exists.mp hl
  have hfc : findCompiler tokens = none := by
    rw [findCompiler, if_neg (by simpa using hne)]
    simp only [findCompilerGo]
    rw [if_pos hlen, hhit]
    apply findCompilerGo_of_ge
    exact skipLauncherArgs_all_dash tokens hit.2 hdash (tokens.length + 1) 1
      (by omega) (by omega)
  refine ⟨hfc, ?_⟩
  rw [parseCommandLine, if_neg (by simpa using hne), hfc]

/-- Witness for C10 at `ccache -v`. -/
theorem launcher_only_empty_parts_witness :
    findCompiler (tokenize "ccache -v".toList) = none ∧
    parseCommandLine (tokenize "ccache -v".toList) = {} :=
  launcher_only_empty_parts (tokenize "ccache -v".toList) (by decide) (by decide)
    (by decide)

end PromptCli
